import Mathlib

/-!
Verification of the transactional document-store adapter (Mongo adapter):
query translation, transaction bulk compilation, bulk-update retry,
sort planning, lookup fill and the incremental hash iterator.

JavaScript objects are modelled as insertion-ordered association lists:
assignment replaces the value in place when the key exists and appends
otherwise; `delete` removes the entry; object literals with spreads are
built left to right, later keys winning.
-/

namespace Mongo

def lookupKey {κ α : Type} [DecidableEq κ] : List (κ × α) → κ → Option α
  | [], _ => none
  | (k', v) :: rest, k => if k' = k then some v else lookupKey rest k

def setKey {κ α : Type} [DecidableEq κ] : List (κ × α) → κ → α → List (κ × α)
  | [], k, v => [(k, v)]
  | (k', v') :: rest, k, v => if k' = k then (k, v) :: rest else (k', v') :: setKey rest k v

def eraseKey {κ α : Type} [DecidableEq κ] : List (κ × α) → κ → List (κ × α)
  | [], _ => []
  | (k', v') :: rest, k => if k' = k then eraseKey rest k else (k', v') :: eraseKey rest k

/-- Assign a sequence of key/value pairs into an object, later entries
overwriting earlier ones (JavaScript object-literal / spread semantics). -/
def mergeInto {κ α : Type} [DecidableEq κ] (m : List (κ × α)) (entries : List (κ × α)) :
    List (κ × α) :=
  entries.foldl (fun acc kv => setKey acc kv.1 kv.2) m

/-- Build an object from an entry sequence, later entries winning. -/
def mkDoc {κ α : Type} [DecidableEq κ] (entries : List (κ × α)) : List (κ × α) :=
  mergeInto [] entries

/-! ### Primitive values -/

inductive Prim where
  | null
  | str (s : String)
  | num (i : Int)
  | boolean (b : Bool)
deriving DecidableEq

/-! ### Hierarchy resolver

The model/hierarchy descriptor is an external collaborator constructed
elsewhere; the adapter only calls `getBaseClass`, `getDescendants`,
`isMixin` and (through `findAttribute`) asks which mixin owns an
attribute.  It is modelled as a bundle of pure functions.
`attributeOwner c k` returns the `attributeOf` class of
`findAttribute(c, k)` when the attribute exists, `none` otherwise. -/

structure Hierarchy where
  getBaseClass : String → String
  getDescendants : String → List String
  isMixin : String → Bool
  attributeOwner : String → String → Option String
  findDomain : String → Option String := fun _ => none

/-- The universal root class `core.class.Doc`. -/
def rootDocClass : String := "core:class:Doc"

/-! ### $like translation

`escapeLikeForRegexp` lives in `@hcengineering/core`, which is not part
of the supplied sources. -/

/-- Modelled from the spec: `escapeLikeForRegexp` — "literal regex
metacharacters in the non-wildcard segments must be escaped before
wildcard expansion"; each regex metacharacter is prefixed with a
backslash. -/
def isRegexMeta (c : Char) : Bool :=
  c = '.' || c = '*' || c = '+' || c = '?' || c = '^' || c = '$' || c = '(' || c = ')' ||
    c = '[' || c = ']' || c = '\x7b' || c = '\x7d' || c = '|' || c = '\\'

/-- Modelled from the spec: escaping of one literal (wildcard-free) segment. -/
def escapeLikeForRegexp (s : List Char) : List Char :=
  s.flatMap (fun c => if isRegexMeta c then ['\\', c] else [c])

/-- The translated `$like` filter value: `$regex` pattern and `$options`.
`List.splitOn` coincides with JavaScript `String.prototype.split` for a
single-character separator (`"".split(c) = [""]`, adjacent separators
produce empty segments). -/
structure RegexFilter where
  pattern : List Char
  options : String
deriving DecidableEq

/-- `translateLikeQuery` — anchored case-insensitive pattern, `%` segments
joined with `.*`, each literal segment escaped. -/
def translateLikeQuery (pat : List Char) : RegexFilter :=
  { pattern := '^' :: (List.intercalate ['.', '*']
      ((pat.splitOn '%').map escapeLikeForRegexp) ++ ['$'])
    options := "i" }

/-! ### Query and filter values

Predicate values are structured: plain primitives, an object whose first
key is `$like`, an object carrying explicit `$in`/`$nin` arrays, or any
other object (copied verbatim for ordinary fields).  Translated filter
values additionally include regexes and the `$exists: true` marker. -/

inductive QueryValue where
  | prim (p : Prim)
  | likeObj (pat : List Char)
  | inNin (inS : Option (List String)) (ninS : Option (List String))
  | otherObj (tag : String)
deriving DecidableEq

inductive FilterValue where
  | prim (p : Prim)
  | regex (r : RegexFilter)
  | inNin (inS : Option (List String)) (ninS : Option (List String))
  | otherObj (tag : String)
  | existsTrue
deriving DecidableEq

/-- `checkMixinKey`: a dot-free key resolving to a mixin-owned attribute is
prefixed with the owning mixin's identifier.  (`key.includes('.')` is
expressed on the character list so that it evaluates by reduction.) -/
def checkMixinKey (h : Hierarchy) (key : String) (clazz : String) : String :=
  if key.toList.contains '.' then key
  else
    match h.attributeOwner clazz key with
    | some owner => if h.isMixin owner then owner ++ "." ++ key else key
    | none => key

/-- Loop body of `translateKey`: walk the dot-separated segments, turning
`$lookup.seg` into `seg_lookup`, re-joining ordinary segments with dots and
applying `checkMixinKey` to the accumulated key after every step.
`i` is the current index and `n` the total number of segments. -/
def translateKeyAux (h : Hierarchy) (clazz : String) (n : Nat) :
    List String → Nat → String → String
  | [], _, tKey => tKey
  | seg :: rest, i, tKey =>
    if seg = "$lookup" then
      match rest with
      | nxt :: rest' =>
        translateKeyAux h clazz n rest' (i + 2)
          (checkMixinKey h (tKey ++ nxt ++ "_lookup") clazz)
      | [] =>
        -- `arr[++i]` is out of range: JavaScript concatenates `undefined`.
        translateKeyAux h clazz n [] (i + 2)
          (checkMixinKey h (tKey ++ "undefined" ++ "_lookup") clazz)
    else
      let tKey := if ¬ tKey.toList.getLast? = some '.' ∧ i > 0 then tKey ++ "." else tKey
      let tKey := tKey ++ seg
      let tKey := if i ≠ n - 1 then tKey ++ "." else tKey
      translateKeyAux h clazz n rest (i + 1) (checkMixinKey h tKey clazz)

def translateKey (h : Hierarchy) (key : String) (clazz : String) : String :=
  let arr := ((key.toList.splitOn '.').map (fun l => String.mk l)).filter (fun p => p ≠ "")
  translateKeyAux h clazz arr.length arr 0 ""

/-- First phase of `translateQuery`: translate every key and copy / rewrite
its value (`$like` objects become regex filters). -/
def translateQueryLoop (h : Hierarchy) (clazz : String)
    (query : List (String × QueryValue)) : List (String × FilterValue) :=
  query.foldl
    (fun acc kv =>
      let tkey := translateKey h kv.1 clazz
      match kv.2 with
      | .prim p => setKey acc tkey (.prim p)
      | .likeObj pat => setKey acc tkey (.regex (translateLikeQuery pat))
      | .inNin a b => setKey acc tkey (.inNin a b)
      | .otherObj t => setKey acc tkey (.otherObj t))
    []

/-- Second phase: rewrite the `_class` constraint against the descendant
set of the base class, add the mixin `$exists` marker, or drop `_class`
entirely for a universal-root search. -/
def classRewrite (h : Hierarchy) (clazz : String)
    (translated : List (String × FilterValue)) : List (String × FilterValue) :=
  let baseClass := h.getBaseClass clazz
  if baseClass ≠ rootDocClass then
    let classes := h.getDescendants baseClass
    let t1 :=
      match lookupKey translated "_class" with
      | none => setKey translated "_class" (.inNin (some classes) none)
      | some (.prim (.str s)) =>
        if classes.contains s then translated
        else setKey translated "_class"
          (.inNin (some (classes.filter (fun c => ! h.isMixin c))) none)
      | some (.prim _) => translated
      | some v =>
        -- object-typed constraint: intersect an explicit $in with the
        -- descendant set, subtract an explicit $nin, drop mixins.
        let desc :=
          match v with
          | .inNin (some ins) _ => ins.filter (fun c => classes.contains c)
          | _ => classes
        let desc :=
          match v with
          | .inNin _ (some nins) => desc.filter (fun c => ! nins.contains c)
          | _ => desc
        setKey translated "_class" (.inNin (some (desc.filter (fun c => ! h.isMixin c))) none)
    if baseClass ≠ clazz then setKey t1 clazz .existsTrue else t1
  else
    eraseKey translated "_class"

/-- Final simplification: a `$in` with exactly one candidate and no `$nin`
collapses to a single-value equality. -/
def classCollapse (translated : List (String × FilterValue)) :
    List (String × FilterValue) :=
  match lookupKey translated "_class" with
  | some (.inNin (some [c]) none) => setKey translated "_class" (.prim (.str c))
  | _ => translated

/-- `MongoAdapterBase.translateQuery`. -/
def translateQuery (h : Hierarchy) (clazz : String)
    (query : List (String × QueryValue)) : List (String × FilterValue) :=
  classCollapse (classRewrite h clazz (translateQueryLoop h clazz query))

/-- The shape the `_class` constraint takes after the final
single-candidate simplification: a bare equality for a singleton set,
an explicit `$in` otherwise. -/
def classConstraintOf (cs : List String) : FilterValue :=
  match cs with
  | [c] => .prim (.str c)
  | _ => .inNin (some cs) none

/-- The set the code computes for an object-typed `_class` constraint:
intersect an explicit `$in` with the descendant set of the base class,
subtract an explicit `$nin`, and drop mixins. -/
def intersectClassSets (h : Hierarchy) (clazz : String)
    (ins nins : Option (List String)) : List String :=
  let classes := h.getDescendants (h.getBaseClass clazz)
  let desc := match ins with
    | some l => l.filter (fun c => classes.contains c)
    | none => classes
  let desc := match nins with
    | some ex => desc.filter (fun c => ! ex.contains c)
    | none => desc
  desc.filter (fun c => ! h.isMixin c)

/-! ### Transaction bulk compiler (`MongoAdapter`)

`isOperator` (from `@hcengineering/core`, not under the supplied
sources) distinguishes a flat field-set from an operator-tagged delta —
an object whose keys all start with `$`.  The delta grammar is therefore
modelled as a closed datatype: `flat` for non-operator field sets, plus
the operator shapes the compiler distinguishes (`$move`, `$update`, and
the catch-all operator object whose payloads are flat documents). -/

inductive UpdateOps where
  | flat (fields : List (String × Prim))
  | move (arrKey : String) (value : Prim) (position : Int)
  | queryUpdate (arrKey : String) (query : List (String × Prim)) (upd : List (String × Prim))
  | oper (ops : List (String × List (String × Prim)))
deriving DecidableEq

/-- Mixin deltas.  The source's `txMixin` `$move` branch indexes the
`$move` payload with the mixin-prefixed key (`keyval[tx.mixin + '.' + key]`)
although the payload is keyed by the bare attribute name, so it
dereferences `undefined` and throws before emitting any operation; mixin
deltas are therefore modelled without `$move`. -/
inductive MixinOps where
  | flat (fields : List (String × Prim))
  | oper (ops : List (String × List (String × Prim)))
deriving DecidableEq

/-- A `$push` payload of the form `{ $each: [value], $position: pos }`. -/
structure PushSpec where
  value : Prim
  position : Int
deriving DecidableEq

/-- A Mongo update document as emitted by the compiler: the `$set`
document, `$pull`/`$push` entries (used by the `$move` expansion), and
any further operator entries spread verbatim from the transaction
(`...tx.operations`). -/
structure UpdateDoc where
  setD : List (String × Prim)
  pullD : List (String × Prim)
  pushD : List (String × PushSpec)
  ops : List (String × List (String × Prim))
deriving DecidableEq

def emptyUpdate : UpdateDoc := { setD := [], pullD := [], pushD := [], ops := [] }

inductive BulkOp where
  | updateOne (id : String) (upd : UpdateDoc)
  | updateOneFiltered (id : String) (extraFilter : List (String × Prim)) (upd : UpdateDoc)
  | deleteOne (id : String)
deriving DecidableEq

/-- The `$set` document's `%hash%` entry of a bulk operation, if any. -/
def BulkOp.setHash : BulkOp → Option Prim
  | .updateOne _ u => lookupKey u.setD "%hash%"
  | .updateOneFiltered _ _ u => lookupKey u.setD "%hash%"
  | .deleteOne _ => none

/-- A raw per-document primitive: `findOneAndUpdate` returning the
post-update document. -/
structure RawOp where
  id : String
  upd : UpdateDoc
deriving DecidableEq

/-- A stored document: identifier, class, business fields, and the
reserved `%hash%` metadata field (`none` = field absent). -/
structure DocV where
  id : String
  objClass : String
  fields : List (String × Prim)
  hashF : Option Prim
deriving DecidableEq

/-- `translateDoc`: spread the document and null its `%hash%` field. -/
def translateDoc (d : DocV) : DocV := { d with hashF := some .null }

/-- Modelled from the spec: `TxProcessor.createDoc2Doc` (from
`@hcengineering/core`, not under the supplied sources) builds the "full
initial document value" carried by a create transaction, stamping the
modification metadata. -/
def createDoc2Doc (objectId objectClass : String) (attributes : List (String × Prim))
    (modifiedBy : String) (modifiedOn : Int) : DocV :=
  { id := objectId
    objClass := objectClass
    fields := mkDoc (attributes ++
      [("modifiedBy", .str modifiedBy), ("modifiedOn", .num modifiedOn)])
    hashF := none }

inductive TxData where
  | createDoc (objectId objectClass : String) (attributes : List (String × Prim))
      (modifiedBy : String) (modifiedOn : Int)
  | updateDoc (objectId objectClass : String) (operations : UpdateOps) (retrieve : Bool)
      (modifiedBy : String) (modifiedOn : Int)
  | mixin (objectId objectClass mixinId : String) (attributes : MixinOps)
      (modifiedBy : String) (modifiedOn : Int)
  | removeDoc (objectId objectClass : String)
  | collectionCUD (objectId objectClass collection : String) (tx : TxData)
  | applyIf
deriving DecidableEq

/-- The per-domain accumulation buckets (`OperationBulk`): insert batch,
merged per-identifier field-set map, explicit bulk-operation list,
read-after-write identifier set, raw primitive list. -/
structure OperationBulk where
  add : List DocV
  update : List (String × List (String × Prim))
  bulkOperations : List BulkOp
  findUpdate : List String
  raw : List RawOp
deriving DecidableEq

def emptyBulk : OperationBulk :=
  { add := [], update := [], bulkOperations := [], findUpdate := [], raw := [] }

/-- JavaScript `Set.add`: insertion order, duplicates ignored. -/
def addToSet (l : List String) (x : String) : List String :=
  if l.contains x then l else l ++ [x]

/-- `translateMixinAttrs` on a non-operator (flat) document: every
attribute key is namespaced under the mixin; a zero-attribute document
yields the `__mixin` sentinel write so Mongo materializes the mixin
namespace. -/
def translateMixinAttrsFlat (mixinId : String) (attrs : List (String × Prim)) :
    List (String × Prim) :=
  match attrs with
  | [] => [(mixinId ++ "." ++ "__mixin", .str "true")]
  | _ => attrs.map (fun kv => (mixinId ++ "." ++ kv.1, kv.2))

/-- `translateMixinAttrs` on an operator delta: `$`-keys recurse, so the
attribute keys inside each operator document are namespaced. -/
def translateMixinAttrsOper (mixinId : String) (ops : List (String × List (String × Prim))) :
    List (String × List (String × Prim)) :=
  ops.map (fun kv => (kv.1, translateMixinAttrsFlat mixinId kv.2))

def modifyOpEntries (modifiedBy : String) (modifiedOn : Int) : List (String × Prim) :=
  [("modifiedBy", .str modifiedBy), ("modifiedOn", .num modifiedOn)]

/-- `MongoAdapter.txCreateDoc`. -/
def txCreateDoc (bulk : OperationBulk) (objectId objectClass : String)
    (attributes : List (String × Prim)) (modifiedBy : String) (modifiedOn : Int) :
    OperationBulk :=
  { bulk with add := bulk.add ++
      [translateDoc (createDoc2Doc objectId objectClass attributes modifiedBy modifiedOn)] }

/-- `MongoAdapter.txRemoveDoc`. -/
def txRemoveDoc (bulk : OperationBulk) (objectId : String) : OperationBulk :=
  { bulk with bulkOperations := bulk.bulkOperations ++ [.deleteOne objectId] }

/-- `MongoAdapter.txUpdateDoc`. -/
def txUpdateDoc (bulk : OperationBulk) (objectId : String) (operations : UpdateOps)
    (retrieve : Bool) (modifiedBy : String) (modifiedOn : Int) : OperationBulk :=
  match operations with
  | .move arrKey value position =>
    { bulk with bulkOperations := bulk.bulkOperations ++
        [ .updateOne objectId { emptyUpdate with
            setD := mkDoc [("%hash%", .null)]
            pullD := [(arrKey, value)] }
        , .updateOne objectId { emptyUpdate with
            setD := mkDoc (modifyOpEntries modifiedBy modifiedOn ++ [("%hash%", .null)])
            pushD := [(arrKey, { value := value, position := position })] } ] }
  | .queryUpdate arrKey query upd =>
    { bulk with bulkOperations := bulk.bulkOperations ++
        [ .updateOneFiltered objectId
            (query.map (fun kv => (arrKey ++ "." ++ kv.1, kv.2)))
            { emptyUpdate with
              setD := mkDoc ((upd.map (fun kv => (arrKey ++ ".$." ++ kv.1, kv.2))) ++
                [("%hash%", .null)]) }
        , .updateOne objectId { emptyUpdate with
            setD := mkDoc (modifyOpEntries modifiedBy modifiedOn ++ [("%hash%", .null)]) } ] }
  | .oper ops =>
    let upd : UpdateDoc := { emptyUpdate with
      ops := eraseKey ops "$set"
      setD := mkDoc (modifyOpEntries modifiedBy modifiedOn ++ [("%hash%", .null)]) }
    if retrieve then
      { bulk with raw := bulk.raw ++ [{ id := objectId, upd := upd }] }
    else
      { bulk with bulkOperations := bulk.bulkOperations ++ [.updateOne objectId upd] }
  | .flat fields =>
    let upd0 := (lookupKey bulk.update objectId).getD []
    let upd := mergeInto upd0
      (fields ++ modifyOpEntries modifiedBy modifiedOn ++ [("%hash%", .null)])
    let bulk := { bulk with update := setKey bulk.update objectId upd }
    if retrieve then { bulk with findUpdate := addToSet bulk.findUpdate objectId } else bulk

/-- `MongoAdapter.txMixin`. -/
def txMixin (bulk : OperationBulk) (objectId mixinId : String) (attributes : MixinOps)
    (modifiedBy : String) (modifiedOn : Int) : OperationBulk :=
  match attributes with
  | .oper ops =>
    { bulk with bulkOperations := bulk.bulkOperations ++
        [ .updateOne objectId { emptyUpdate with
            ops := eraseKey (translateMixinAttrsOper mixinId ops) "$set"
            setD := mkDoc (modifyOpEntries modifiedBy modifiedOn) } ] }
  | .flat fields =>
    let upd0 := (lookupKey bulk.update objectId).getD []
    let upd := mergeInto upd0
      (translateMixinAttrsFlat mixinId fields ++ modifyOpEntries modifiedBy modifiedOn)
    { bulk with update := setKey bulk.update objectId upd }

/-- `MongoAdapter.updateBulk` (including `txCollectionCUD`, which re-homes
a wrapped create with the owner linkage and unwraps everything else). -/
def updateBulk (bulk : OperationBulk) : TxData → OperationBulk
  | .createDoc objectId objectClass attributes modifiedBy modifiedOn =>
    txCreateDoc bulk objectId objectClass attributes modifiedBy modifiedOn
  | .updateDoc objectId _ operations retrieve modifiedBy modifiedOn =>
    txUpdateDoc bulk objectId operations retrieve modifiedBy modifiedOn
  | .mixin objectId _ mixinId attributes modifiedBy modifiedOn =>
    txMixin bulk objectId mixinId attributes modifiedBy modifiedOn
  | .removeDoc objectId _ => txRemoveDoc bulk objectId
  | .collectionCUD objectId objectClass collection inner =>
    match inner with
    | .createDoc innerId innerClass attrs modifiedBy modifiedOn =>
      txCreateDoc bulk innerId innerClass
        (attrs ++ [("attachedTo", .str objectId), ("attachedToClass", .str objectClass),
          ("collection", .str collection)])
        modifiedBy modifiedOn
    | t => updateBulk bulk t
  | .applyIf => bulk

/-- Compile one ordered domain group of transactions. -/
def compileTxes (txes : List TxData) : OperationBulk :=
  txes.foldl updateBulk emptyBulk

/-- Modelled from the spec: `groupByArray` (from `@hcengineering/core`,
not under the supplied sources) — "Transactions are grouped by domain for
compilation but must preserve their relative order within a domain":
each key maps to the sublist of elements carrying that key, in their
original order. -/
def groupByArray {α κ : Type} [DecidableEq κ] (f : α → κ) (l : List α) : List (κ × List α) :=
  ((l.map f).dedup).map (fun k => (k, l.filter (fun x => f x = k)))

/-- The grouping key used by `MongoAdapter.tx`: the domain of the
transaction's target class (`undefined` for non-CUD records). -/
def txDomainKey (h : Hierarchy) : TxData → Option String
  | .createDoc _ oc _ _ _ => h.findDomain oc
  | .updateDoc _ oc _ _ _ _ => h.findDomain oc
  | .mixin _ oc _ _ _ _ => h.findDomain oc
  | .removeDoc _ oc => h.findDomain oc
  | .collectionCUD _ oc _ _ => h.findDomain oc
  | .applyIf => none

/-- One backend command, as issued by `MongoAdapter.tx` for a domain group. -/
inductive Command where
  | insertMany (docs : List DocV)
  | updateManyBulk (entries : List (String × List (String × Prim)))
  | bulkWrite (ops : List BulkOp)
  | findResult (ids : List String)
  | rawOps (ops : List RawOp)
deriving DecidableEq

def Command.phase : Command → Nat
  | .insertMany _ => 0
  | .updateManyBulk _ => 1
  | .bulkWrite _ => 2
  | .findResult _ => 3
  | .rawOps _ => 4

/-- The ordered command sequence `MongoAdapter.tx` issues for one domain
group: insert batch, merged field-set batch, explicit bulk-operation
list, read-after-write fetch, raw primitives — each phase only when its
bucket is non-empty. -/
def applyDomainBulk (b : OperationBulk) : List Command :=
  (if b.add ≠ [] then [.insertMany b.add] else []) ++
  (if b.update ≠ [] then [.updateManyBulk b.update] else []) ++
  (if b.bulkOperations ≠ [] then [.bulkWrite b.bulkOperations] else []) ++
  (if b.findUpdate ≠ [] then [.findResult b.findUpdate] else []) ++
  (if b.raw ≠ [] then [.rawOps b.raw] else [])

/-! ### `MongoAdapterBase.update` — bulk field-set write with retry

The backend collaborator is modelled by a failure predicate on single
update operations.  An unordered Mongo `bulkWrite` applies every
operation of the batch that succeeds individually, and reports an error
when any operation of the batch fails. -/

/-- One pending operation of `MongoAdapterBase.update`: the target
identifier and its field-set update. -/
structure PendingOp where
  id : String
  upd : List (String × Prim)
deriving DecidableEq

/-- Granularity-1 phase: once a bulk write has failed, `skip` stays `1`;
each single-operation bulk write either applies its operation or logs the
failure (`ctx.error`, whose error object identifies the single offending
operation) and moves on without re-queueing.  Returns
`(applied, failures logged)`. -/
def updateSingles (fails : PendingOp → Bool) : List PendingOp → List PendingOp × List PendingOp
  | [] => ([], [])
  | o :: rest =>
    let r := updateSingles fails rest
    if fails o then (r.1, o :: r.2) else (o :: r.1, r.2)

/-- `MongoAdapterBase.update`: splice chunks of 500 operations; a failed
chunk (partially applied by the unordered bulk write) is pushed back to
the end of the queue and the batch size degrades to 1 for the rest of the
run.  Returns `(applied, failures logged)`. -/
def updateWithRetry (fails : PendingOp → Bool) (ops : List PendingOp) :
    List PendingOp × List PendingOp :=
  if h : ops = [] then ([], [])
  else
    let part := ops.take 500
    let rest := ops.drop 500
    if part.any fails then
      let r := updateSingles fails (rest ++ part)
      (part.filter (fun o => ! fails o) ++ r.1, r.2)
    else
      let r := updateWithRetry fails rest
      (part ++ r.1, r.2)
termination_by ops.length
decreasing_by
  simp only [List.length_drop]
  have : 0 < ops.length := List.length_pos.mpr h
  omega

/-! ### Sort planner: `fillDateSort` -/

inductive SortingOrder where
  | ascending
  | descending
deriving DecidableEq

/-- A date-typed field value: absent, null, or a timestamp. -/
inductive DateField where
  | missing
  | nullV
  | val (t : Int)
deriving DecidableEq

/-- The derived boolean
`$or: [{ $eq: [field, null] }, { $eq: [{ $type: field }, 'missing'] }]`. -/
def isNullOrMissing : DateField → Bool
  | .val _ => false
  | _ => true

/-- What `fillDateSort` emits: the `$addFields` derived-field name and the
sort entries it assigns, in insertion order. -/
structure DateSortPlan where
  addField : String
  sortEntries : List (String × Int)
deriving DecidableEq

/-- `fillDateSort`: push the derived is-null field, then sort by it and by
the raw value, both with the requested direction. -/
def fillDateSort (key : String) (ord : SortingOrder) : DateSortPlan :=
  let d : Int := if ord = .ascending then 1 else -1
  { addField := "sort_isNull_" ++ key
    sortEntries := [("sort_isNull_" ++ key, d), (key, d)] }

/-- A value compared during a date sort: the derived boolean or the raw
date value. -/
inductive SortVal where
  | bV (b : Bool)
  | dV (f : DateField)
deriving DecidableEq

/-- BSON comparison on the values arising here: null and missing sort
together below numbers, numbers by value, booleans above numbers with
`false < true`. -/
def cmpSortVal (a b : SortVal) : Ordering :=
  let rank : SortVal → Nat := fun v =>
    match v with
    | .dV .missing => 0
    | .dV .nullV => 0
    | .dV (.val _) => 1
    | .bV _ => 2
  match a, b with
  | .dV (.val x), .dV (.val y) => compare x y
  | .bV x, .bV y => compare x y
  | _, _ => compare (rank a) (rank b)

/-- The value a document exposes for a sort field: the derived is-null
boolean for the `$addFields` field, the raw value for the key itself. -/
def evalSortField (key : String) (d : DateField) (fieldName : String) : SortVal :=
  if fieldName = "sort_isNull_" ++ key then .bV (isNullOrMissing d) else .dV d

/-- Lexicographic comparison of two documents under a sort-entry list, a
direction of `-1` reversing that entry's comparison. -/
def sortCompare (key : String) (entries : List (String × Int)) (d₁ d₂ : DateField) : Ordering :=
  match entries with
  | [] => .eq
  | (f, dir) :: rest =>
    let c := cmpSortVal (evalSortField key d₁ f) (evalSortField key d₂ f)
    let c := if dir = -1 then c.swap else c
    match c with
    | .eq => sortCompare key rest d₁ d₂
    | o => o

/-! ### Lookup fill (`MongoAdapterBase.fillLookup`) -/

/-- A value attached under the `$lookup` namespace of a result document. -/
inductive LookupRes (δ : Type) where
  | single (d : δ)
  | many (ds : List δ)
  | fromModel (d : Option δ)
deriving DecidableEq

/-- `MongoAdapterBase.fillLookup` for one lookup key: `arr` is
`object[fullKey]` — the join-result array, absent when no pipeline step
ran; `lkp` is the document's `$lookup` object (created empty beforehand
when absent); `modelVal` models `(modelDb.findAll(...))[0]` for targets
stored in the in-memory model domain.  For a backend-stored target:
exactly one match collapses to the single object, two or more attach the
list, zero (or an absent array) writes nothing. -/
def fillLookup {δ : Type} (isModelDomain : Bool) (arr : Option (List δ)) (key : String)
    (lkp : List (String × LookupRes δ)) (modelVal : Option δ) :
    List (String × LookupRes δ) :=
  if isModelDomain then setKey lkp key (.fromModel modelVal)
  else
    match arr with
    | some [d] => setKey lkp key (.single d)
    | some l => if l.length > 1 then setKey lkp key (.many l) else lkp
    | none => lkp

/-! ### Incremental hash iterator (`MongoAdapterBase.find`)

Strings manipulated by the iterator (digests, the persisted
`"hash|size-in-hex"` metadata) are modelled as `List Char`.  The cursors
are modelled as snapshots: the phase-2 query runs only after phase 1 is
exhausted, and no write lands before it (computed hashes are only
buffered, and flushed during phase 2 / on close). -/

/-- A stored document as the iterator sees it: identifier, content, and
the `%hash%` metadata (`none` = null or absent, `some []` = empty —
both mean "not yet computed"). -/
structure HDoc (γ : Type) where
  id : String
  content : γ
  hash : Option (List Char)
deriving DecidableEq

/-- `'%hash%' in ['', null]`. -/
def hashEmpty {γ : Type} (d : HDoc γ) : Bool :=
  match d.hash with
  | none => true
  | some s => s = []

/-- The hash and size providers: `options.calculateHash` (default: sha256
over the document, base64-encoded) and `estimateDocSize`, both
collaborators from `@hcengineering/server-core` outside the supplied
sources; abstract functions of the content. -/
structure IterParams (γ : Type) where
  calcHash : γ → List Char
  estSize : γ → Nat

/-- JavaScript `String.prototype.indexOf` for one character (`some` index
instead of `-1`). -/
def idxOfChar (c : Char) : List Char → Option Nat
  | [] => none
  | x :: xs => if x = c then some 0 else (idxOfChar c xs).map (· + 1)

/-- The numeric value of one hexadecimal digit (case-insensitive),
computed from the character code. -/
def hexDigitVal (c : Char) : Option Nat :=
  if '0' ≤ c ∧ c ≤ '9' then some (c.toNat - '0'.toNat)
  else if 'a' ≤ c ∧ c ≤ 'f' then some (c.toNat - 'a'.toNat + 10)
  else if 'A' ≤ c ∧ c ≤ 'F' then some (c.toNat - 'A'.toNat + 10)
  else none

/-- JavaScript `parseInt(s, 16)`: the longest hexadecimal-digit prefix,
`NaN` (modelled `none`) when it is empty. -/
def parseHexNat (l : List Char) : Option Nat :=
  let ds := l.takeWhile (fun c => (hexDigitVal c).isSome)
  if ds = [] then none
  else some (ds.foldl (fun acc c => acc * 16 + (hexDigitVal c).getD 0) 0)

/-- One lowercase hexadecimal digit, from the digit value
(character code 48 is `0`, 87 + 10 is `a`). -/
def toHexDigit (n : Nat) : Char :=
  if n < 10 then Char.ofNat (48 + n) else Char.ofNat (87 + n)

/-- The digit list of `n` in base 16 (most significant first, empty for 0). -/
def toHexList (n : Nat) : List Char :=
  if h : n = 0 then []
  else toHexList (n / 16) ++ [toHexDigit (n % 16)]
termination_by n
decreasing_by exact Nat.div_lt_self (Nat.pos_of_ne_zero h) (by omega)

/-- JavaScript `Number.prototype.toString(16)` for a natural number:
lowercase hexadecimal, no padding. -/
def toHex (n : Nat) : List Char :=
  if n = 0 then ['0'] else toHexList n

/-- One emitted triple `{ id, hash, size }`; a malformed persisted size
parses to `NaN` (`none`). -/
structure HashTriple where
  id : String
  hash : List Char
  size : Option Nat
deriving DecidableEq

/-- The phase-1 branch of `next()`: parse the persisted metadata at the
first `'|'`.  When JavaScript `indexOf` returns `-1`, `slice(0, -1)`
drops the last character and `slice(0)` keeps everything. -/
def parseStoredHash (id : String) (digest : List Char) : HashTriple :=
  match idxOfChar '|' digest with
  | some pos =>
    { id := id, hash := digest.take pos, size := parseHexNat (digest.drop (pos + 1)) }
  | none => { id := id, hash := digest.dropLast, size := parseHexNat digest }

/-- The metadata value buffered for a freshly computed hash:
`digest + '|' + size.toString(16)`. -/
def storedHashValue (digest : List Char) (size : Nat) : List Char :=
  digest ++ '|' :: toHex size

/-- One buffered metadata write:
`updateOne { _id: id } { $set: { '%hash%': value } }`. -/
def applyHashUpdate {γ : Type} (coll : List (HDoc γ)) (e : String × List Char) :
    List (HDoc γ) :=
  coll.map (fun d => if d.id = e.1 then { d with hash := some e.2 } else d)

/-- `flush`: write every buffered entry back as a metadata-only bulk
update. -/
def flushBuffer {γ : Type} (coll : List (HDoc γ)) (buf : List (String × List Char)) :
    List (HDoc γ) :=
  buf.foldl applyHashUpdate coll

/-- Phase 2 of the iterator: walk the documents whose hash metadata is
null or empty, compute the approximate size and the digest, buffer
`digest|hex(size)` keyed by identifier (`bulkUpdate.set`), flush once
more than 1000 entries are buffered, and flush the remainder on
`close()`.  Returns (emitted triples, final collection, number of hash
computations). -/
def phase2Run {γ : Type} (p : IterParams γ) :
    List (HDoc γ) → List (String × List Char) → List (HDoc γ) →
      List HashTriple × List (HDoc γ) × Nat
  | [], buf, coll => ([], flushBuffer coll buf, 0)
  | d :: rest, buf, coll =>
    let size := p.estSize d.content
    let digest := p.calcHash d.content
    let buf' := setKey buf d.id (storedHashValue digest size)
    let st := if buf'.length > 1000 then (([] : List (String × List Char)), flushBuffer coll buf')
      else (buf', coll)
    let r := phase2Run p rest st.1 st.2
    ({ id := d.id, hash := digest, size := some size } :: r.1, r.2.1, r.2.2 + 1)

/-- The net effect of a buffer on a single document: apply every
matching buffered entry in order. -/
def applyEntriesTo {γ : Type} (buf : List (String × List Char)) (d : HDoc γ) : HDoc γ :=
  buf.foldl (fun d' e => if d'.id = e.1 then { d' with hash := some e.2 } else d') d

/-- The state of one document after a full `recheck = false` pass: a
document without usable hash metadata gets the freshly computed
`digest|hex(size)` persisted; others are untouched. -/
def hashAfterRun {γ : Type} (p : IterParams γ) (d : HDoc γ) : HDoc γ :=
  if hashEmpty d then
    { d with hash := some (storedHashValue (p.calcHash d.content) (p.estSize d.content)) }
  else d

/-- The observable outcome of one full pass. -/
structure RunResult (γ : Type) where
  out : List HashTriple
  coll : List (HDoc γ)
  computeCount : Nat
  phase1Count : Nat

/-- One full pass of the `StorageIterator` returned by
`MongoAdapterBase.find`, driven to exhaustion and then closed: an
optional recheck invalidation (`updateMany({'%hash%': {$ne: null}},
{$set: {'%hash%': null}})`), phase 1 over the documents whose hash
metadata is neither empty nor null (parsed, no computation), then
phase 2 over the rest, the final buffer flushed by `close()`. -/
def runIterator {γ : Type} (p : IterParams γ) (coll : List (HDoc γ)) (recheck : Bool) :
    RunResult γ :=
  let coll0 :=
    match recheck with
    | true => coll.map (fun d => if d.hash ≠ none then { d with hash := none } else d)
    | false => coll
  let p1 := coll0.filter (fun d => ! hashEmpty d)
  let out1 := p1.map (fun d => parseStoredHash d.id (d.hash.getD []))
  let p2 := coll0.filter (fun d => hashEmpty d)
  let r := phase2Run p p2 [] coll0
  { out := out1 ++ r.1
    coll := r.2.1
    computeCount := r.2.2
    phase1Count := p1.length }

/-- Iterator parameters for the C9 witness: a constant digest without
`'|'` and a constant size. -/
def pWit : IterParams Nat :=
  { calcHash := fun _ => ['h', '1'], estSize := fun _ => 3 }

/-- Collection for the C9 witness: one unhashed and one pre-hashed
document. -/
def collWit : List (HDoc Nat) :=
  [ { id := "a", content := 1, hash := none }
  , { id := "b", content := 2, hash := some ['x', '|', '5'] } ]

/-- Transactions used by the C2 witness: two CUD records on one domain. -/
def txesW : List TxData := [.createDoc "a" "C" [] "u" 1, .removeDoc "b" "C"]

/-- A hierarchy mapping every class to the domain `dom`. -/
def hierDom : Hierarchy :=
  { getBaseClass := fun c => c
    getDescendants := fun c => [c]
    isMixin := fun _ => false
    attributeOwner := fun _ _ => none
    findDomain := fun _ => some "dom" }

/-! ### Concrete hierarchies used in witnesses and counterexamples -/

/-- A class `T` that is its own base class, with one mixin descendant `M`. -/
def hierTM : Hierarchy :=
  { getBaseClass := fun c => c
    getDescendants := fun c => if c = "T" then ["T", "M"] else [c]
    isMixin := fun c => c = "M"
    attributeOwner := fun _ _ => none }

/-- A class `T` with one ordinary descendant `D` and a sibling `E`; no mixins. -/
def hierTD : Hierarchy :=
  { getBaseClass := fun c => c
    getDescendants := fun c => if c = "T" then ["T", "D"] else [c]
    isMixin := fun _ => false
    attributeOwner := fun _ _ => none }

/-- A mixin `M` whose base class is `T`; `T` descends to `T` and `M`. -/
def hierMixinM : Hierarchy :=
  { getBaseClass := fun c => if c = "M" then "T" else c
    getDescendants := fun c => if c = "T" then ["T", "M"] else [c]
    isMixin := fun c => c = "M"
    attributeOwner := fun _ _ => none }

/-! ## Theorems -/

theorem lookupKey_setKey_self {κ α : Type} [DecidableEq κ] (m : List (κ × α)) (k : κ) (v : α) :
    lookupKey (setKey m k v) k = some v := by
  induction m with
  | nil => simp [setKey, lookupKey]
  | cons hd tl ih =>
    by_cases h : hd.1 = k
    · simp [setKey, lookupKey, h]
    · simp [setKey, lookupKey, h, ih]

theorem lookupKey_setKey_ne {κ α : Type} [DecidableEq κ] (m : List (κ × α)) (k k' : κ) (v : α)
    (h : k' ≠ k) : lookupKey (setKey m k v) k' = lookupKey m k' := by
  induction m with
  | nil => simp [setKey, lookupKey, Ne.symm h]
  | cons hd tl ih =>
    rcases hd with ⟨a, b⟩
    by_cases hak : a = k
    · subst hak
      simp [setKey, lookupKey, Ne.symm h]
    · by_cases hak' : a = k'
      · simp [setKey, lookupKey, hak, hak', h]
      · simp [setKey, lookupKey, hak, hak', ih]

theorem lookupKey_eraseKey_self {κ α : Type} [DecidableEq κ] (m : List (κ × α)) (k : κ) :
    lookupKey (eraseKey m k) k = none := by
  induction m with
  | nil => simp [eraseKey, lookupKey]
  | cons hd tl ih =>
    by_cases h : hd.1 = k
    · simp [eraseKey, h, ih]
    · simp [eraseKey, lookupKey, h, ih]

theorem mergeInto_append {κ α : Type} [DecidableEq κ] (m : List (κ × α)) (l₁ l₂ : List (κ × α)) :
    mergeInto m (l₁ ++ l₂) = mergeInto (mergeInto m l₁) l₂ := by
  simp [mergeInto, List.foldl_append]

theorem lookupKey_mergeInto_last {κ α : Type} [DecidableEq κ] (m : List (κ × α))
    (l : List (κ × α)) (k : κ) (v : α) :
    lookupKey (mergeInto m (l ++ [(k, v)])) k = some v := by
  rw [mergeInto_append]
  simp [mergeInto, lookupKey_setKey_self]

theorem lookupKey_mergeInto_of_notMem {κ α : Type} [DecidableEq κ] (m : List (κ × α))
    (l : List (κ × α)) (k : κ) (h : ∀ e ∈ l, e.1 ≠ k) :
    lookupKey (mergeInto m l) k = lookupKey m k := by
  induction l generalizing m with
  | nil => simp [mergeInto]
  | cons hd tl ih =>
    have hhd : hd.1 ≠ k := h hd (List.mem_cons_self _ _)
    have htl : ∀ e ∈ tl, e.1 ≠ k := fun e he => h e (List.mem_cons_of_mem _ he)
    simp only [mergeInto, List.foldl_cons]
    rw [show (List.foldl (fun acc kv => setKey acc kv.1 kv.2) (setKey m hd.1 hd.2) tl) =
        mergeInto (setKey m hd.1 hd.2) tl from rfl, ih _ htl,
      lookupKey_setKey_ne _ _ _ _ (Ne.symm hhd)]

theorem classCollapse_lookup_ne (m : List (String × FilterValue)) (k : String)
    (hk : k ≠ "_class") : lookupKey (classCollapse m) k = lookupKey m k := by
  unfold classCollapse
  split
  · exact lookupKey_setKey_ne _ _ _ _ hk
  · rfl

theorem classCollapse_of_exists (m : List (String × FilterValue))
    (hm : lookupKey m "_class" = some .existsTrue) : classCollapse m = m := by
  unfold classCollapse
  rw [hm]

theorem classCollapse_of_prim (m : List (String × FilterValue)) (p : Prim)
    (hm : lookupKey m "_class" = some (.prim p)) : classCollapse m = m := by
  unfold classCollapse
  rw [hm]

theorem classCollapse_of_none (m : List (String × FilterValue))
    (hm : lookupKey m "_class" = none) : classCollapse m = m := by
  unfold classCollapse
  rw [hm]

theorem classCollapse_lookup_inNin (m : List (String × FilterValue)) (cs : List String)
    (hm : lookupKey m "_class" = some (.inNin (some cs) none)) :
    lookupKey (classCollapse m) "_class" = some (classConstraintOf cs) := by
  unfold classCollapse
  rw [hm]
  match cs with
  | [] => exact hm
  | [c] => exact lookupKey_setKey_self _ _ _
  | c₁ :: c₂ :: rest => exact hm

/-! ### C4 — class constraint for a query that does not constrain `_class` -/

/-- C4, counterexample.  The claim states that the emitted class constraint
is the descendant set of the requested class *excluding mixins*.  For the
class `T` with mixin descendant `M` and an unconstrained query, the code
emits `_class: { $in: [T, M] }`, which contains the mixin `M`: the
unconstrained branch (`translated._class === undefined`) does not apply
the `isMixin` filter that the constrained branches apply. -/
theorem C4_counterexample :
    lookupKey (translateQuery hierTM "T" []) "_class" =
      some (.inNin (some ["T", "M"]) none) ∧
    hierTM.isMixin "M" = true ∧ "M" ∈ hierTM.getDescendants "T" := by
  refine ⟨by decide, by decide, by decide⟩

/-- C4, amended: for every query whose translated predicate does not
constrain `_class`, the emitted filter constrains `_class` to the full
descendant set of the *base class* of the requested class — mixin
descendants included — simplified to a bare equality when that set is a
singleton; and when the base class is the universal root, no class
constraint is emitted at all (`_class` is dropped from the filter). -/
theorem translateQuery_unconstrained_class (h : Hierarchy) (clazz : String)
    (q : List (String × QueryValue))
    (hnc : lookupKey (translateQueryLoop h clazz q) "_class" = none)
    (hcl : clazz ≠ "_class") :
    (h.getBaseClass clazz = rootDocClass →
      lookupKey (translateQuery h clazz q) "_class" = none) ∧
    (h.getBaseClass clazz ≠ rootDocClass →
      lookupKey (translateQuery h clazz q) "_class" =
        some (classConstraintOf (h.getDescendants (h.getBaseClass clazz)))) := by
  constructor
  · intro hroot
    have h2 : lookupKey (classRewrite h clazz (translateQueryLoop h clazz q)) "_class" =
        none := by
      unfold classRewrite
      simp only [hroot, ne_eq, not_true_eq_false, if_false]
      exact lookupKey_eraseKey_self _ _
    unfold translateQuery
    rw [classCollapse_of_none _ h2]
    exact h2
  · intro hnroot
    have h2 : lookupKey (classRewrite h clazz (translateQueryLoop h clazz q)) "_class" =
        some (.inNin (some (h.getDescendants (h.getBaseClass clazz))) none) := by
      unfold classRewrite
      rw [if_pos hnroot, hnc]
      by_cases hbc : h.getBaseClass clazz ≠ clazz
      · rw [if_pos hbc, lookupKey_setKey_ne _ _ _ _ (Ne.symm hcl)]
        exact lookupKey_setKey_self _ _ _
      · rw [if_neg hbc]
        exact lookupKey_setKey_self _ _ _
    unfold translateQuery
    exact classCollapse_lookup_inNin _ _ h2

/-- C4, witness for the amended theorem at a concrete input. -/
theorem translateQuery_unconstrained_class_witness :
    lookupKey (translateQuery hierTM "T" []) "_class" =
      some (classConstraintOf (hierTM.getDescendants (hierTM.getBaseClass "T"))) :=
  (translateQuery_unconstrained_class hierTM "T" [] rfl (by decide)).2 (by decide)

/-! ### C5 — class constraint for a query that does constrain `_class` -/

/-- C5, counterexample.  The claim states the translated constraint is the
*intersection* of the requested constraint with the legal descendant set.
For class `T` (descendants `T`, `D`) and query `_class = "E"` with
`E` outside the descendant set, the intersection is empty, yet the code
replaces the constraint with the *whole* descendant set
`{ $in: [T, D] }` — classes the caller never asked for. -/
theorem C5_counterexample :
    lookupKey (translateQuery hierTD "T" [("_class", .prim (.str "E"))]) "_class" =
      some (.inNin (some ["T", "D"]) none) ∧
    ¬ "E" ∈ hierTD.getDescendants "T" ∧ "T" ≠ "E" := by
  refine ⟨by decide, by decide, by decide⟩

/-- C5, amended: when the predicate constrains `_class` to a single value,
the value is kept if it lies in the descendant set of the base class and
is otherwise *replaced by the full non-mixin descendant set* (not the
empty intersection); when it carries explicit `$in`/`$nin` sets, the
translated constraint is the `$in` set intersected with the descendant
set, minus the `$nin` set, minus mixins, simplified to a single-value
equality when exactly one candidate remains (the exclusion set is always
consumed by the subtraction, never re-emitted). -/
theorem translateQuery_constrained_class (h : Hierarchy) (clazz : String)
    (q : List (String × QueryValue)) (hcl : clazz ≠ "_class")
    (hnroot : h.getBaseClass clazz ≠ rootDocClass) :
    (∀ s, lookupKey (translateQueryLoop h clazz q) "_class" = some (.prim (.str s)) →
      lookupKey (translateQuery h clazz q) "_class" =
        (if (h.getDescendants (h.getBaseClass clazz)).contains s
          then some (.prim (.str s))
          else some (classConstraintOf ((h.getDescendants (h.getBaseClass clazz)).filter
            (fun c => ! h.isMixin c))))) ∧
    (∀ ins nins,
      lookupKey (translateQueryLoop h clazz q) "_class" = some (.inNin ins nins) →
      lookupKey (translateQuery h clazz q) "_class" =
        some (classConstraintOf (intersectClassSets h clazz ins nins))) := by
  constructor
  · intro s hs
    by_cases hmem : (h.getDescendants (h.getBaseClass clazz)).contains s
    · have h2 : lookupKey (classRewrite h clazz (translateQueryLoop h clazz q)) "_class" =
          some (.prim (.str s)) := by
        unfold classRewrite
        rw [if_pos hnroot, hs]
        dsimp only
        rw [if_pos hmem]
        by_cases hbc : h.getBaseClass clazz ≠ clazz
        · rw [if_pos hbc, lookupKey_setKey_ne _ _ _ _ (Ne.symm hcl)]
          exact hs
        · rw [if_neg hbc]
          exact hs
      unfold translateQuery
      rw [classCollapse_of_prim _ _ h2, if_pos hmem]
      exact h2
    · have h2 : lookupKey (classRewrite h clazz (translateQueryLoop h clazz q)) "_class" =
          some (.inNin (some ((h.getDescendants (h.getBaseClass clazz)).filter
            (fun c => ! h.isMixin c))) none) := by
        unfold classRewrite
        rw [if_pos hnroot, hs]
        dsimp only
        rw [if_neg hmem]
        by_cases hbc : h.getBaseClass clazz ≠ clazz
        · rw [if_pos hbc, lookupKey_setKey_ne _ _ _ _ (Ne.symm hcl)]
          exact lookupKey_setKey_self _ _ _
        · rw [if_neg hbc]
          exact lookupKey_setKey_self _ _ _
      unfold translateQuery
      rw [if_neg hmem]
      exact classCollapse_lookup_inNin _ _ h2
  · intro ins nins hs
    have h2 : lookupKey (classRewrite h clazz (translateQueryLoop h clazz q)) "_class" =
        some (.inNin (some (intersectClassSets h clazz ins nins)) none) := by
      unfold classRewrite
      rw [if_pos hnroot, hs]
      dsimp only
      by_cases hbc : h.getBaseClass clazz ≠ clazz
      · rw [if_pos hbc, lookupKey_setKey_ne _ _ _ _ (Ne.symm hcl)]
        cases ins <;> cases nins <;>
          simp [intersectClassSets, lookupKey_setKey_self]
      · rw [if_neg hbc]
        cases ins <;> cases nins <;>
          simp [intersectClassSets, lookupKey_setKey_self]
    unfold translateQuery
    exact classCollapse_lookup_inNin _ _ h2

/-- C5, witness for the amended theorem at a concrete input:
`$in: [D, X]`, `$nin: [T]` against descendants `[T, D]` collapses to the
single-value equality `D`. -/
theorem translateQuery_constrained_class_witness :
    lookupKey (translateQuery hierTD "T"
        [("_class", .inNin (some ["D", "X"]) (some ["T"]))]) "_class" =
      some (.prim (.str "D")) := by
  have h := (translateQuery_constrained_class hierTD "T"
      [("_class", .inNin (some ["D", "X"]) (some ["T"]))] (by decide) (by decide)).2
    (some ["D", "X"]) (some ["T"]) (by decide)
  have e : classConstraintOf (intersectClassSets hierTD "T" (some ["D", "X"]) (some ["T"])) =
      .prim (.str "D") := by decide
  rw [e] at h
  exact h

/-! ### C7 — $like translation -/

/-- C7: for every pattern assembled from wildcard-free literal segments
joined by `%`, the translated filter is the anchored (`^`…`$`),
case-insensitive (`$options = "i"`) pattern in which every `%` becomes
the wildcard `.*` and each literal segment is escaped (by
`escapeLikeForRegexp`) before wildcard expansion. -/
theorem translateLikeQuery_spec (ss : List (List Char)) (hne : ss ≠ [])
    (hfree : ∀ s ∈ ss, '%' ∉ s) :
    translateLikeQuery (List.intercalate ['%'] ss) =
      { pattern := '^' :: (List.intercalate ['.', '*'] (ss.map escapeLikeForRegexp) ++ ['$'])
        options := "i" } := by
  unfold translateLikeQuery
  rw [List.splitOn_intercalate ss '%' hfree hne]

/-- C7, witness: `a+%b` translates to `^a\+.*b$` with options `i`. -/
theorem translateLikeQuery_spec_witness :
    translateLikeQuery ['a', '+', '%', 'b'] =
      { pattern := ['^', 'a', '\\', '+', '.', '*', 'b', '$'], options := "i" } := by
  have h := translateLikeQuery_spec [['a', '+'], ['b']] (by decide) (by decide)
  have e1 : List.intercalate ['%'] [['a', '+'], ['b']] = ['a', '+', '%', 'b'] := by decide
  have e2 : '^' :: (List.intercalate ['.', '*']
      ([['a', '+'], ['b']].map escapeLikeForRegexp) ++ ['$']) =
      ['^', 'a', '\\', '+', '.', '*', 'b', '$'] := by decide
  rw [e1, e2] at h
  exact h

/-! ### C10 — mixin existence constraint -/

/-- C10: for every query whose requested class is not its own base class
(a mixin of a non-root base), the translated filter carries, under the
mixin's own identifier as key, the constraint `$exists: true`, so only
documents that actually hold that mixin facet can match. -/
theorem translateQuery_mixin_exists (h : Hierarchy) (clazz : String)
    (q : List (String × QueryValue))
    (hnroot : h.getBaseClass clazz ≠ rootDocClass)
    (hmx : h.getBaseClass clazz ≠ clazz) :
    lookupKey (translateQuery h clazz q) clazz = some .existsTrue := by
  have h2 : lookupKey (classRewrite h clazz (translateQueryLoop h clazz q)) clazz =
      some .existsTrue := by
    unfold classRewrite
    rw [if_pos hnroot, if_pos hmx]
    exact lookupKey_setKey_self _ _ _
  by_cases hcc : clazz = "_class"
  · unfold translateQuery
    rw [classCollapse_of_exists _ (by rw [← hcc]; exact h2)]
    exact h2
  · unfold translateQuery
    rw [classCollapse_lookup_ne _ _ hcc]
    exact h2

/-- C10, witness at a concrete mixin `M` with base `T`. -/
theorem translateQuery_mixin_exists_witness :
    lookupKey (translateQuery hierMixinM "M" []) "M" = some .existsTrue :=
  translateQuery_mixin_exists hierMixinM "M" [] (by decide) (by decide)

/-! ### C1 — hash invalidation by the bulk compiler -/

/-- C1: evaluation at the failing input.  Create and update writes do null
the `%hash%` metadata (conjuncts 3 and 4), but mixin-apply writes do not:
a flat mixin delta merges only the namespaced attributes plus
`modifiedBy`/`modifiedOn` into its field-set write — the merged update
carries no `%hash%` key at all (conjunct 1) — and an operator mixin
delta's `$set` document carries only `modifiedBy`/`modifiedOn`
(conjunct 2).  This contradicts the claimed "every create / update /
mixin-apply write sets `%hash%` to null" for the mixin-apply kind. -/
theorem txMixin_no_hash_invalidation :
    ((lookupKey ((compileTxes [.mixin "d1" "C" "M" (.flat [("a", .num 1)]) "u" 5]).update)
        "d1").map (fun upd => lookupKey upd "%hash%") = some none) ∧
    ((compileTxes [.mixin "d1" "C" "M" (.oper [("$push", [("b", .num 2)])]) "u" 5]).bulkOperations.map
        BulkOp.setHash = [none]) ∧
    ((lookupKey ((compileTxes [.updateDoc "d1" "C" (.flat [("a", .num 1)]) false "u" 5]).update)
        "d1").map (fun upd => lookupKey upd "%hash%") = some (some .null)) ∧
    ((compileTxes [.createDoc "d1" "C" [("a", .num 1)] "u" 5]).add.map DocV.hashF =
        [some .null]) := by
  refine ⟨by decide, by decide, by decide, by decide⟩

/-! ### C2 — per-domain grouping and apply order -/

theorem updateBulk_bulkOperations (b : OperationBulk) (t : TxData) :
    (updateBulk b t).bulkOperations =
      b.bulkOperations ++ (updateBulk emptyBulk t).bulkOperations := by
  induction t generalizing b with
  | createDoc objectId objectClass attributes modifiedBy modifiedOn =>
    simp [updateBulk, txCreateDoc, emptyBulk]
  | updateDoc objectId objectClass operations retrieve modifiedBy modifiedOn =>
    cases operations with
    | flat fields => cases retrieve <;> simp [updateBulk, txUpdateDoc, emptyBulk]
    | move a v p => simp [updateBulk, txUpdateDoc, emptyBulk]
    | queryUpdate a qq u => simp [updateBulk, txUpdateDoc, emptyBulk]
    | oper ops => cases retrieve <;> simp [updateBulk, txUpdateDoc, emptyBulk]
  | mixin objectId objectClass mixinId attributes modifiedBy modifiedOn =>
    cases attributes <;> simp [updateBulk, txMixin, emptyBulk]
  | removeDoc objectId objectClass => simp [updateBulk, txRemoveDoc, emptyBulk]
  | collectionCUD objectId objectClass collection inner ih =>
    cases inner with
    | createDoc a b' c d e => simp [updateBulk, txCreateDoc, emptyBulk]
    | updateDoc a b' c d e f => simpa [updateBulk] using ih b
    | mixin a b' c d e f => simpa [updateBulk] using ih b
    | removeDoc a b' => simpa [updateBulk] using ih b
    | collectionCUD a b' c d => simpa [updateBulk] using ih b
    | applyIf => simpa [updateBulk] using ih b
  | applyIf => simp [updateBulk, emptyBulk]

theorem compileTxes_bulkOperations (txes : List TxData) :
    (compileTxes txes).bulkOperations =
      txes.flatMap (fun t => (updateBulk emptyBulk t).bulkOperations) := by
  suffices h : ∀ b, ((txes.foldl updateBulk b).bulkOperations =
      b.bulkOperations ++ txes.flatMap (fun t => (updateBulk emptyBulk t).bulkOperations)) by
    simpa [compileTxes, emptyBulk] using h emptyBulk
  induction txes with
  | nil => intro b; simp
  | cons t ts ih =>
    intro b
    simp only [List.foldl_cons]
    rw [ih (updateBulk b t), updateBulk_bulkOperations b t]
    simp

theorem applyDomainBulk_phases (b : OperationBulk) :
    List.Chain' (fun c₁ c₂ => Command.phase c₁ < Command.phase c₂) (applyDomainBulk b) := by
  unfold applyDomainBulk
  split_ifs <;> simp [Command.phase]

theorem groupByArray_mem {α κ : Type} [DecidableEq κ] (f : α → κ) (l : List α)
    (k : κ) (g : List α) (hm : (k, g) ∈ groupByArray f l) :
    g = l.filter (fun x => f x = k) := by
  unfold groupByArray at hm
  simp only [List.mem_map, Prod.mk.injEq] at hm
  obtain ⟨k', _, hk, hg⟩ := hm
  subst hk
  exact hg.symm

/-- C2, amended: every domain group of `MongoAdapter.tx` contains exactly
the transactions whose target class maps to that domain, in their
original relative order; the compiled output for a group is applied in
phase order insert batch → merged field-set batch → explicit
bulk-operation list → read-after-write fetch → raw primitives; and the
explicit bulk-operation list is the in-order concatenation of the
operations each transaction contributes.  (The claim's final consequence
— that two transactions on the same identifier always take effect in
their original relative order — does not hold across phase buckets; see
the counterexample.) -/
theorem tx_apply_order (h : Hierarchy) (txes : List TxData) :
    (∀ d group, (d, group) ∈ groupByArray (txDomainKey h) txes →
      group = txes.filter (fun t => txDomainKey h t = d)) ∧
    List.Chain' (fun c₁ c₂ => Command.phase c₁ < Command.phase c₂)
      (applyDomainBulk (compileTxes txes)) ∧
    (compileTxes txes).bulkOperations =
      txes.flatMap (fun t => (updateBulk emptyBulk t).bulkOperations) :=
  ⟨fun _ _ hm => groupByArray_mem _ _ _ _ hm, applyDomainBulk_phases _,
    compileTxes_bulkOperations _⟩

/-- C2, witness at a concrete input. -/
theorem tx_apply_order_witness :
    txesW = txesW.filter (fun t => txDomainKey hierDom t = some "dom") ∧
    List.Chain' (fun c₁ c₂ => Command.phase c₁ < Command.phase c₂)
      (applyDomainBulk (compileTxes txesW)) ∧
    (compileTxes txesW).bulkOperations =
      txesW.flatMap (fun t => (updateBulk emptyBulk t).bulkOperations) := by
  have h := tx_apply_order hierDom txesW
  exact ⟨h.1 (some "dom") txesW (by decide), h.2.1, h.2.2⟩

/-- C2, counterexample to the claim's final consequence ("two transactions
targeting the same identifier within one call take effect in their
original relative order"): an operator update to `d1` followed by a
create of `d1` compiles so that the *later* create's insert command phase
precedes the *earlier* update's bulk-write command. -/
theorem C2_counterexample :
    applyDomainBulk (compileTxes
      [ .updateDoc "d1" "C" (.oper [("$push", [("tags", .str "x")])]) false "u" 1
      , .createDoc "d1" "C" [("title", .str "t")] "u" 2 ]) =
      [ .insertMany [translateDoc (createDoc2Doc "d1" "C" [("title", .str "t")] "u" 2)]
      , .bulkWrite [.updateOne "d1" { emptyUpdate with
          ops := [("$push", [("tags", .str "x")])]
          setD := mkDoc (modifyOpEntries "u" 1 ++ [("%hash%", .null)]) }] ] := by
  decide

/-! ### C3 — bulk-write partial failure -/

theorem updateSingles_spec (fails : PendingOp → Bool) (l : List PendingOp) :
    (updateSingles fails l).1 = l.filter (fun o => ! fails o) ∧
    (updateSingles fails l).2 = l.filter fails := by
  induction l with
  | nil => simp [updateSingles]
  | cons o rest ih =>
    by_cases hf : fails o <;>
      simp [updateSingles, hf, ih.1, ih.2, List.filter_cons]

/-- C3: if a bulk write of compacted per-identifier field-set updates
fails, the adapter degrades to batch size 1 and retries the failed
portion once at single-operation granularity; afterwards (1) an operation
is applied iff it was in the batch and does not fail on its own — the
successes stay committed, with no rollback — and (2) the failures logged
at granularity 1 are exactly the failing operations (hence exactly the
failing identifiers), each reported once. -/
theorem update_retry_spec (fails : PendingOp → Bool) (ops : List PendingOp) :
    (∀ o, o ∈ (updateWithRetry fails ops).1 ↔ (o ∈ ops ∧ fails o = false)) ∧
    (updateWithRetry fails ops).2.Perm (ops.filter fails) := by
  suffices H : ∀ n (ops : List PendingOp), ops.length = n →
      ((∀ o, o ∈ (updateWithRetry fails ops).1 ↔ (o ∈ ops ∧ fails o = false)) ∧
        (updateWithRetry fails ops).2.Perm (ops.filter fails)) from H _ ops rfl
  intro n
  induction n using Nat.strong_induction_on with
  | _ n ih =>
    intro ops hlen
    rw [updateWithRetry]
    by_cases h0 : ops = []
    · subst h0
      simp
    · rw [dif_neg h0]
      dsimp only
      have hpr : ops.take 500 ++ ops.drop 500 = ops := List.take_append_drop _ _
      by_cases hfany : (ops.take 500).any fails
      · rw [if_pos hfany]
        constructor
        · intro o
          have hsplit : o ∈ ops ↔ o ∈ ops.take 500 ∨ o ∈ ops.drop 500 := by
            rw [← hpr, List.mem_append]
            rw [hpr]
          rw [(updateSingles_spec fails _).1]
          simp only [List.mem_append, List.mem_filter, Bool.not_eq_true', hsplit]
          constructor
          · rintro (⟨hm, hne⟩ | ⟨hm | hm, hne⟩)
            · exact ⟨Or.inl hm, hne⟩
            · exact ⟨Or.inr hm, hne⟩
            · exact ⟨Or.inl hm, hne⟩
          · rintro ⟨hm | hm, hne⟩
            · exact Or.inl ⟨hm, hne⟩
            · exact Or.inr ⟨Or.inl hm, hne⟩
        · rw [(updateSingles_spec fails _).2, List.filter_append]
          refine (List.perm_append_comm).trans ?_
          rw [← List.filter_append, hpr]
      · rw [if_neg hfany]
        have hnf : ∀ o ∈ ops.take 500, fails o = false := by
          intro o hm
          by_contra hc
          exact hfany (List.any_eq_true.mpr ⟨o, hm, by simpa using hc⟩)
        have hrl : (ops.drop 500).length < n := by
          subst hlen
          have := List.length_pos.mpr h0
          simp only [List.length_drop]
          omega
        obtain ⟨ihm, ihp⟩ := ih _ hrl (ops.drop 500) rfl
        constructor
        · intro o
          have hsplit : o ∈ ops ↔ o ∈ ops.take 500 ∨ o ∈ ops.drop 500 := by
            rw [← hpr, List.mem_append]
            rw [hpr]
          simp only [List.mem_append, ihm, hsplit]
          constructor
          · rintro (hm | ⟨hm, hne⟩)
            · exact ⟨Or.inl hm, hnf o hm⟩
            · exact ⟨Or.inr hm, hne⟩
          · rintro ⟨hm | hm, hne⟩
            · exact Or.inl hm
            · exact Or.inr ⟨hm, hne⟩
        · have hempty : (ops.take 500).filter fails = [] :=
            List.filter_eq_nil_iff.mpr (fun o hm => by simp [hnf o hm])
          refine ihp.trans ?_
          have : (ops.drop 500).filter fails =
              (ops.take 500).filter fails ++ (ops.drop 500).filter fails := by
            rw [hempty, List.nil_append]
          rw [this, ← List.filter_append, hpr]

/-! ### C6 — date sort and null placement -/

/-- C6, counterexample.  The claim states that documents with null or
missing date values sort after documents with non-null values regardless
of the requested direction.  Under the emitted sort specification for a
*descending* request, the derived is-null boolean is itself sorted
descending, so a null document compares `lt` — i.e. sorts *before* — a
document carrying a value. -/
theorem C6_counterexample :
    sortCompare "due" ((fillDateSort "due" .descending).sortEntries) .nullV (.val 5) =
      .lt ∧
    isNullOrMissing .nullV = true ∧ isNullOrMissing (.val 5) = false := by
  refine ⟨by decide, by decide, by decide⟩

/-- C6, amended: `fillDateSort` emits the derived "is null or missing"
boolean field and sorts by it *before* the raw value, but with the
requested direction applied to the boolean as well: documents with null
or missing values sort after documents with values when the requested
direction is ascending, and before them when it is descending. -/
theorem fillDateSort_direction (key : String) (ord : SortingOrder) (d₁ d₂ : DateField)
    (h₁ : isNullOrMissing d₁ = false) (h₂ : isNullOrMissing d₂ = true) :
    (fillDateSort key ord).sortEntries =
      [("sort_isNull_" ++ key, if ord = .ascending then 1 else -1),
        (key, if ord = .ascending then 1 else -1)] ∧
    (ord = .ascending →
      sortCompare key (fillDateSort key ord).sortEntries d₁ d₂ = .lt) ∧
    (ord = .descending →
      sortCompare key (fillDateSort key ord).sortEntries d₂ d₁ = .lt) := by
  refine ⟨rfl, ?_, ?_⟩
  · rintro rfl
    simp [sortCompare, fillDateSort, evalSortField, cmpSortVal, h₁, h₂]
  · rintro rfl
    simp [sortCompare, fillDateSort, evalSortField, cmpSortVal, h₁, h₂, Ordering.swap]

/-- C6, witness for the amended theorem. -/
theorem fillDateSort_direction_witness :
    sortCompare "due" ((fillDateSort "due" .ascending).sortEntries) (.val 5) .nullV =
      .lt :=
  (fillDateSort_direction "due" .ascending (.val 5) .nullV (by decide) (by decide)).2.1 rfl

/-! ### C8 — forward lookup collapse -/

/-- C8: for a forward lookup on a backend-stored target class, the fill
phase attaches, under the lookup key of the `$lookup` namespace, a single
object when exactly one related document matched, the list when two or
more matched, and writes no key at all when zero matched (or when the
join array is absent). -/
theorem fillLookup_collapse {δ : Type} (key : String) (lkp : List (String × LookupRes δ))
    (l : List δ) (mv : Option δ) :
    (∀ d, l = [d] →
      lookupKey (fillLookup false (some l) key lkp mv) key = some (.single d)) ∧
    (2 ≤ l.length →
      lookupKey (fillLookup false (some l) key lkp mv) key = some (.many l)) ∧
    (l = [] → lookupKey lkp key = none →
      lookupKey (fillLookup false (some l) key lkp mv) key = none) ∧
    (lookupKey lkp key = none →
      lookupKey (fillLookup false none key lkp mv) key = none) := by
  refine ⟨?_, ?_, ?_, ?_⟩
  · rintro d rfl
    simp [fillLookup, lookupKey_setKey_self]
  · intro hlen
    match l, hlen with
    | d₁ :: d₂ :: t, _ =>
      simp [fillLookup, lookupKey_setKey_self]
  · rintro rfl hnone
    simpa [fillLookup] using hnone
  · intro hnone
    simpa [fillLookup] using hnone

/-! ### C9 — hash iterator idempotence -/

theorem setKey_of_not_mem {κ α : Type} [DecidableEq κ] (m : List (κ × α)) (k : κ) (v : α)
    (h : k ∉ m.map Prod.fst) : setKey m k v = m ++ [(k, v)] := by
  induction m with
  | nil => rfl
  | cons e es ih =>
    simp only [List.map_cons, List.mem_cons, not_or] at h
    simp [setKey, Ne.symm h.1, ih h.2]

theorem flushBuffer_append {γ : Type} (coll : List (HDoc γ))
    (b₁ b₂ : List (String × List Char)) :
    flushBuffer coll (b₁ ++ b₂) = flushBuffer (flushBuffer coll b₁) b₂ := by
  simp [flushBuffer, List.foldl_append]

theorem flushBuffer_eq_map {γ : Type} (buf : List (String × List Char))
    (coll : List (HDoc γ)) :
    flushBuffer coll buf = coll.map (applyEntriesTo buf) := by
  induction buf generalizing coll with
  | nil =>
    have h2 : coll.map (applyEntriesTo []) = coll.map id :=
      List.map_congr_left (fun d _ => rfl)
    show coll = coll.map (applyEntriesTo [])
    rw [h2, List.map_id]
  | cons e es ih =>
    have h1 : flushBuffer coll (e :: es) = flushBuffer (applyHashUpdate coll e) es := rfl
    rw [h1, ih]
    simp only [applyHashUpdate, List.map_map]
    rfl

theorem applyEntriesTo_of_not_mem {γ : Type} (buf : List (String × List Char)) (d : HDoc γ)
    (h : d.id ∉ buf.map Prod.fst) : applyEntriesTo buf d = d := by
  induction buf with
  | nil => rfl
  | cons e es ih =>
    simp only [List.map_cons, List.mem_cons, not_or] at h
    have h1 : applyEntriesTo (e :: es) d = applyEntriesTo es d := by
      simp [applyEntriesTo, h.1]
    rw [h1, ih h.2]

theorem applyEntriesTo_lookup {γ : Type} (buf : List (String × List Char)) (d : HDoc γ)
    (hnd : (buf.map Prod.fst).Nodup) :
    applyEntriesTo buf d =
      (match lookupKey buf d.id with
        | some v => { d with hash := some v }
        | none => d) := by
  induction buf with
  | nil => simp [applyEntriesTo, lookupKey]
  | cons e es ih =>
    simp only [List.map_cons, List.nodup_cons] at hnd
    by_cases he : d.id = e.1
    · have h1 : applyEntriesTo (e :: es) d = applyEntriesTo es { d with hash := some e.2 } := by
        simp [applyEntriesTo, he]
      rw [h1, applyEntriesTo_of_not_mem es _ (by simpa [he] using hnd.1)]
      simp [lookupKey, he.symm]
    · have h1 : applyEntriesTo (e :: es) d = applyEntriesTo es d := by
        simp [applyEntriesTo, he]
      rw [h1, ih hnd.2]
      have hne : ¬ e.1 = d.id := fun hh => he hh.symm
      simp [lookupKey, hne]

theorem lookupKey_map_of_mem {α : Type} (l : List α) (keyf : α → String)
    (valf : α → List Char) (d : α) (hd : d ∈ l) (hnd : (l.map keyf).Nodup) :
    lookupKey (l.map (fun x => (keyf x, valf x))) (keyf d) = some (valf d) := by
  induction l with
  | nil => cases hd
  | cons e es ih =>
    simp only [List.map_cons, List.nodup_cons] at hnd
    rcases List.mem_cons.mp hd with rfl | hd'
    · simp [lookupKey]
    · have hne : keyf e ≠ keyf d := fun hh => hnd.1 (hh ▸ List.mem_map_of_mem keyf hd')
      simp only [List.map_cons, lookupKey, hne, if_false]
      exact ih hd' hnd.2

theorem phase2Run_spec {γ : Type} (p : IterParams γ) (l : List (HDoc γ)) :
    ∀ (buf : List (String × List Char)) (coll : List (HDoc γ)),
      ((buf.map Prod.fst) ++ l.map HDoc.id).Nodup →
      phase2Run p l buf coll =
        (l.map (fun d =>
            (⟨d.id, p.calcHash d.content, some (p.estSize d.content)⟩ : HashTriple)),
          flushBuffer coll (buf ++ l.map (fun d =>
            (d.id, storedHashValue (p.calcHash d.content) (p.estSize d.content)))),
          l.length) := by
  induction l with
  | nil =>
    intro buf coll _
    simp [phase2Run]
  | cons d rest ih =>
    intro buf coll hnd
    have hdn : d.id ∉ buf.map Prod.fst := by
      have hdisj := List.disjoint_of_nodup_append hnd
      intro hmem
      exact hdisj hmem (by simp)
    have hset := setKey_of_not_mem buf d.id
      (storedHashValue (p.calcHash d.content) (p.estSize d.content)) hdn
    have hnd' : (((buf ++ [(d.id, storedHashValue (p.calcHash d.content)
        (p.estSize d.content))]).map Prod.fst) ++ rest.map HDoc.id).Nodup := by
      simpa [List.append_assoc] using hnd
    have hndrest : ((([] : List (String × List Char)).map Prod.fst) ++
        rest.map HDoc.id).Nodup := by
      have hsub : List.Sublist (rest.map HDoc.id)
          (buf.map Prod.fst ++ (d :: rest).map HDoc.id) := by
        refine List.Sublist.trans ?_ (List.sublist_append_right _ _)
        simp
      simpa using hsub.nodup hnd
    simp only [phase2Run, hset]
    by_cases hth : (buf ++ [(d.id, storedHashValue (p.calcHash d.content)
        (p.estSize d.content))]).length > 1000
    · rw [if_pos hth]
      dsimp only
      rw [ih _ _ hndrest]
      simp only [flushBuffer_append, List.append_assoc, List.nil_append]
      rfl
    · rw [if_neg hth]
      dsimp only
      rw [ih _ _ hnd']
      simp [List.append_assoc]

theorem hexDigitVal_toHexDigit (m : Nat) (hm : m < 16) :
    hexDigitVal (toHexDigit m) = some m := by
  interval_cases m <;> rfl

theorem toHexList_all_hex (n : Nat) : ∀ c ∈ toHexList n, (hexDigitVal c).isSome := by
  induction n using Nat.strong_induction_on with
  | _ n ih =>
    intro c hc
    rw [toHexList] at hc
    by_cases h : n = 0
    · simp [h] at hc
    · rw [dif_neg h] at hc
      rcases List.mem_append.mp hc with hc' | hc'
      · exact ih (n / 16) (Nat.div_lt_self (Nat.pos_of_ne_zero h) (by omega)) c hc'
      · have : c = toHexDigit (n % 16) := by simpa using hc'
        rw [this, hexDigitVal_toHexDigit _ (Nat.mod_lt _ (by omega))]
        rfl

theorem toHexList_foldl (n : Nat) :
    (toHexList n).foldl (fun acc c => acc * 16 + (hexDigitVal c).getD 0) 0 = n := by
  induction n using Nat.strong_induction_on with
  | _ n ih =>
    rw [toHexList]
    by_cases h : n = 0
    · simp [h]
    · rw [dif_neg h, List.foldl_append,
        ih (n / 16) (Nat.div_lt_self (Nat.pos_of_ne_zero h) (by omega))]
      simp [hexDigitVal_toHexDigit (n % 16) (Nat.mod_lt _ (by omega))]
      omega

theorem toHexList_ne_nil (n : Nat) (h : n ≠ 0) : toHexList n ≠ [] := by
  rw [toHexList, dif_neg h]
  simp

theorem parseHexNat_toHex (n : Nat) : parseHexNat (toHex n) = some n := by
  by_cases h : n = 0
  · subst h
    rfl
  · have hall : (toHexList n).takeWhile (fun c => (hexDigitVal c).isSome) = toHexList n :=
      List.takeWhile_eq_self_iff.mpr (toHexList_all_hex n)
    simp only [parseHexNat, toHex, if_neg h, hall]
    rw [if_neg (toHexList_ne_nil n h), toHexList_foldl]

theorem idxOfChar_append (a b : List Char) (hna : '|' ∉ a) :
    idxOfChar '|' (a ++ '|' :: b) = some a.length := by
  induction a with
  | nil => simp [idxOfChar]
  | cons x xs ih =>
    simp only [List.mem_cons, not_or] at hna
    have hx : ¬ x = '|' := fun hh => hna.1 hh.symm
    simp [idxOfChar, hx, ih hna.2]

theorem parseStoredHash_roundtrip (id : String) (digest : List Char) (size : Nat)
    (hfree : '|' ∉ digest) :
    parseStoredHash id (storedHashValue digest size) =
      { id := id, hash := digest, size := some size } := by
  unfold parseStoredHash storedHashValue
  rw [idxOfChar_append _ _ hfree]
  have htake : (digest ++ '|' :: toHex size).take digest.length = digest := by
    rw [List.take_left]
  have hdrop : (digest ++ '|' :: toHex size).drop (digest.length + 1) = toHex size := by
    rw [show digest ++ '|' :: toHex size = (digest ++ ['|']) ++ toHex size by simp,
      List.drop_left' (by simp)]
  simp [htake, hdrop, parseHexNat_toHex]

theorem flush_entries_eq_hashAfterRun {γ : Type} (p : IterParams γ) (coll : List (HDoc γ))
    (hids : (coll.map HDoc.id).Nodup) :
    flushBuffer coll ((coll.filter (fun d => hashEmpty d)).map
        (fun d => (d.id, storedHashValue (p.calcHash d.content) (p.estSize d.content)))) =
      coll.map (hashAfterRun p) := by
  have hfn : ((coll.filter (fun d => hashEmpty d)).map HDoc.id).Nodup :=
    ((List.filter_sublist coll).map HDoc.id).nodup hids
  have hkeys : ((coll.filter (fun d => hashEmpty d)).map
      (fun d => (d.id, storedHashValue (p.calcHash d.content) (p.estSize d.content)))).map
        Prod.fst = (coll.filter (fun d => hashEmpty d)).map HDoc.id := by
    simp [List.map_map]
  rw [flushBuffer_eq_map]
  refine List.map_congr_left ?_
  intro d hd
  by_cases hhe : hashEmpty d
  · have hdmem : d ∈ coll.filter (fun d => hashEmpty d) := List.mem_filter.mpr ⟨hd, hhe⟩
    have hlk := lookupKey_map_of_mem (coll.filter (fun d => hashEmpty d)) HDoc.id
      (fun d => storedHashValue (p.calcHash d.content) (p.estSize d.content)) d hdmem hfn
    rw [applyEntriesTo_lookup _ _ (by rw [hkeys]; exact hfn), hlk]
    simp [hashAfterRun, hhe]
  · have hnm : d.id ∉ ((coll.filter (fun d => hashEmpty d)).map
        (fun d => (d.id, storedHashValue (p.calcHash d.content) (p.estSize d.content)))).map
          Prod.fst := by
      rw [hkeys]
      intro hmem
      obtain ⟨e, hemem, heid⟩ := List.mem_map.mp hmem
      have heco : e ∈ coll := (List.mem_filter.mp hemem).1
      have heq : e = d := List.inj_on_of_nodup_map hids heco hd heid
      subst heq
      exact hhe (by simpa using (List.mem_filter.mp hemem).2)
    rw [applyEntriesTo_of_not_mem _ _ hnm]
    simp [hashAfterRun, hhe]

theorem runIterator_false_eq {γ : Type} (p : IterParams γ) (coll : List (HDoc γ))
    (hids : (coll.map HDoc.id).Nodup) :
    runIterator p coll false =
      { out := (coll.filter (fun d => ! hashEmpty d)).map
            (fun d => parseStoredHash d.id (d.hash.getD [])) ++
          (coll.filter (fun d => hashEmpty d)).map
            (fun d => ⟨d.id, p.calcHash d.content, some (p.estSize d.content)⟩)
        coll := coll.map (hashAfterRun p)
        computeCount := (coll.filter (fun d => hashEmpty d)).length
        phase1Count := (coll.filter (fun d => ! hashEmpty d)).length } := by
  have hfn : ((coll.filter (fun d => hashEmpty d)).map HDoc.id).Nodup :=
    ((List.filter_sublist coll).map HDoc.id).nodup hids
  unfold runIterator
  dsimp only
  rw [phase2Run_spec p _ [] coll (by simpa using hfn)]
  dsimp only
  simp only [List.nil_append]
  rw [flush_entries_eq_hashAfterRun p coll hids]

theorem runIterator_all_hashed {γ : Type} (p : IterParams γ) (c : List (HDoc γ))
    (hall : ∀ d ∈ c, hashEmpty d = false) :
    runIterator p c false =
      { out := c.map (fun d => parseStoredHash d.id (d.hash.getD []))
        coll := c
        computeCount := 0
        phase1Count := c.length } := by
  unfold runIterator
  dsimp only
  rw [List.filter_eq_self.mpr (fun a ha => by simp [hall a ha]),
    List.filter_eq_nil_iff.mpr (fun a ha => by simp [hall a ha])]
  simp [phase2Run, flushBuffer]

/-- C9: with no intervening writes, running the hash iterator over a
domain twice with `recheck = false`, closing it after each run, yields
the same `{identifier, hash, size}` triples both times (as a
permutation; the second run lists them in collection order), the second
run performs no hash computation and serves every document in phase 1
from the persisted `hash|size-in-hex` metadata written and flushed by
the first run — whose parse round-trips to the original digest and size
— and leaves the collection untouched.  Hypotheses: document identifiers
are unique (Mongo `_id`), and computed digests contain no `'|'`
separator (the built-in digest is base64). -/
theorem hashIterator_idempotent {γ : Type} (p : IterParams γ) (coll : List (HDoc γ))
    (hids : (coll.map HDoc.id).Nodup)
    (hbar : ∀ d ∈ coll, hashEmpty d = true → '|' ∉ p.calcHash d.content) :
    (runIterator p (runIterator p coll false).coll false).computeCount = 0 ∧
    (runIterator p (runIterator p coll false).coll false).phase1Count =
      (runIterator p (runIterator p coll false).coll false).out.length ∧
    ((runIterator p (runIterator p coll false).coll false).out).Perm
      ((runIterator p coll false).out) ∧
    (runIterator p (runIterator p coll false).coll false).coll =
      (runIterator p coll false).coll := by
  have h1 := runIterator_false_eq p coll hids
  have hall : ∀ d ∈ coll.map (hashAfterRun p), hashEmpty d = false := by
    intro d hd
    obtain ⟨d0, hd0, rfl⟩ := List.mem_map.mp hd
    by_cases hhe : hashEmpty d0
    · have hne : storedHashValue (p.calcHash d0.content) (p.estSize d0.content) ≠ [] := by
        simp [storedHashValue]
      unfold hashAfterRun
      rw [if_pos hhe]
      simp [hashEmpty, hne]
    · unfold hashAfterRun
      rw [if_neg hhe]
      simpa using hhe
  have h2 := runIterator_all_hashed p (coll.map (hashAfterRun p)) hall
  rw [h1]
  dsimp only
  rw [h2]
  dsimp only
  refine ⟨rfl, by simp, ?_, rfl⟩
  rw [List.map_map]
  have hperm := (List.filter_append_perm (fun d => ! hashEmpty d) coll).symm
  simp only [Bool.not_not] at hperm
  refine (hperm.map _).trans ?_
  rw [List.map_append]
  refine List.Perm.of_eq ?_
  congr 1
  · refine List.map_congr_left ?_
    intro d hd
    have hhe : hashEmpty d = false := by simpa using (List.mem_filter.mp hd).2
    simp [Function.comp, hashAfterRun, hhe]
  · refine List.map_congr_left ?_
    intro d hd
    have hhe : hashEmpty d = true := (List.mem_filter.mp hd).2
    have hfree : '|' ∉ p.calcHash d.content := hbar d (List.mem_filter.mp hd).1 hhe
    simp only [Function.comp, hashAfterRun, hhe, if_pos]
    rw [show ((some (storedHashValue (p.calcHash d.content) (p.estSize d.content))).getD
        ([] : List Char)) = storedHashValue (p.calcHash d.content) (p.estSize d.content)
      from rfl]
    rw [parseStoredHash_roundtrip d.id _ _ hfree]

/-- C9, witness at a concrete collection (one unhashed, one pre-hashed
document). -/
theorem hashIterator_idempotent_witness :
    (runIterator pWit (runIterator pWit collWit false).coll false).computeCount = 0 ∧
    (runIterator pWit (runIterator pWit collWit false).coll false).phase1Count =
      (runIterator pWit (runIterator pWit collWit false).coll false).out.length ∧
    ((runIterator pWit (runIterator pWit collWit false).coll false).out).Perm
      ((runIterator pWit collWit false).out) ∧
    (runIterator pWit (runIterator pWit collWit false).coll false).coll =
      (runIterator pWit collWit false).coll :=
  hashIterator_idempotent pWit collWit (by decide) (by decide)

/-- C8, witness at concrete inputs: one match collapses to the object, two
attach the list, zero leave the key absent. -/
theorem fillLookup_collapse_witness :
    lookupKey (fillLookup false (some [7]) "k" ([] : List (String × LookupRes Nat)) none)
        "k" = some (.single 7) ∧
    lookupKey (fillLookup false (some [7, 8]) "k" ([] : List (String × LookupRes Nat)) none)
        "k" = some (.many [7, 8]) ∧
    lookupKey (fillLookup false (some ([] : List Nat)) "k" [] none) "k" = none :=
  ⟨(fillLookup_collapse "k" [] [7] none).1 7 rfl,
    (fillLookup_collapse "k" [] [7, 8] none).2.1 (by decide),
    (fillLookup_collapse "k" [] [] none).2.2.1 rfl rfl⟩

end Mongo
